import Mathlib

/-!
Verification of the adversarial-search notebook: alpha-beta pruning minimax
(`alpha_beta_search`, `min_value`, `max_value`) and the opening-book builder
(`build_table`, `build_tree`, `simulate`), embedded shallowly.

Python floats only ever hold integers or plus/minus infinity here, so the
value domain is the integers extended with a bottom and a top element.
The `GameState` collaborator (module `gamestate`) is not part of the sources;
it is modelled from the spec as an abstract `GameSpec` record.
-/

namespace AdvSearch

set_option linter.unusedSectionVars false

/-- Search values: integers together with minus infinity (`⊥`) and plus
infinity (`⊤`), the only float values the notebook manipulates. -/
abbrev V : Type := WithBot (WithTop ℤ)

/-- Embed a plain integer utility into the value domain. -/
def intV (z : ℤ) : V := ((z : WithTop ℤ) : V)

/-- Modelled from the spec: the `GameState` collaborator of module
`gamestate` (absent from the sources).  Per the spec it provides a finite
order-stable action list, a pure transition function, a terminal test, a
utility evaluation relative to a player identity returning a value in a small
fixed integer range, and a turn parity (`_parity`). -/
structure GameSpec (S A : Type) where
  actions : S → List A
  result : S → A → S
  terminal_test : S → Bool
  utility : S → Nat → ℤ
  parity : S → Nat

variable {S A H : Type} [DecidableEq A] [DecidableEq H]

/-- Terminal utility as seen by the search: `gameState.utility(p)` as a value. -/
def utilV (g : GameSpec S A) (s : S) (p : Nat) : V := intV (g.utility s p)

/-- The sibling loop of `min_value`: running value `v`, running bound `beta`;
`v = min(v, child)`, early return once `v <= alpha`, otherwise
`beta = min(beta, v)` before the next sibling. -/
def minLoop (child : A → V → V) (alpha : V) : List A → V → V → V
  | [], v, _ => v
  | a :: rest, v, beta =>
    let v2 := min v (child a beta)
    if v2 ≤ alpha then v2 else minLoop child alpha rest v2 (min beta v2)

/-- The sibling loop of `max_value`: running value `v`, running bound `alpha`;
`v = max(v, child)`, early return once `v >= beta`, otherwise
`alpha = max(alpha, v)` before the next sibling. -/
def maxLoop (child : A → V → V) (beta : V) : List A → V → V → V
  | [], v, _ => v
  | a :: rest, v, alpha =>
    let v2 := max v (child a alpha)
    if beta ≤ v2 then v2 else maxLoop child beta rest v2 (max alpha v2)

/-- The two mutually recursive evaluators of the notebook, folded into one
function selected by `isMax`, with an explicit recursion depth (the games in
scope are exhaustively enumerable, so every run is performed with enough
fuel).  Terminal states return `gameState.utility(0)` exactly as in the
source. -/
def ab_value (g : GameSpec S A) : Nat → Bool → S → V → V → V
  | 0, isMax, s, _, _ =>
    if g.terminal_test s then utilV g s 0 else (if isMax then ⊥ else ⊤)
  | n + 1, isMax, s, alpha, beta =>
    if g.terminal_test s then utilV g s 0
    else if isMax then
      maxLoop (fun a al => ab_value g n false (g.result s a) al beta) beta
        (g.actions s) ⊥ alpha
    else
      minLoop (fun a be => ab_value g n true (g.result s a) alpha be) alpha
        (g.actions s) ⊤ beta

/-- `max_value(gameState, alpha, beta)` of the source. -/
def max_value (g : GameSpec S A) (n : Nat) (s : S) (alpha beta : V) : V :=
  ab_value g n true s alpha beta

/-- `min_value(gameState, alpha, beta)` of the source. -/
def min_value (g : GameSpec S A) (n : Nat) (s : S) (alpha beta : V) : V :=
  ab_value g n false s alpha beta

/-- The root loop of `alpha_beta_search`: evaluate each action through
`min_value` with the running `alpha` (beta stays `+inf`), tighten `alpha`,
and replace the incumbent only on a strict improvement (`v > best_score`). -/
def ab_root (g : GameSpec S A) (n : Nat) (s : S) :
    List A → V → V → Option A → Option A
  | [], _, _, best => best
  | a :: rest, alpha, bestScore, best =>
    let v := min_value g n (g.result s a) alpha ⊤
    let alpha2 := max alpha v
    if bestScore < v then ab_root g n s rest alpha2 v (some a)
    else ab_root g n s rest alpha2 bestScore best

/-- `alpha_beta_search(gameState)` of the source: `alpha = -inf`,
`beta = +inf`, `best_score = -inf`, `best_move = None`, then the root loop. -/
def alpha_beta_search (g : GameSpec S A) (n : Nat) (s : S) : Option A :=
  ab_root g n s (g.actions s) ⊥ ⊥ none

/-- Minimum of a list of values (`+inf` for the empty list). -/
def listMin : List V → V
  | [] => ⊤
  | x :: xs => min x (listMin xs)

/-- Maximum of a list of values (`-inf` for the empty list). -/
def listMax : List V → V
  | [] => ⊥
  | x :: xs => max x (listMax xs)

/-- Plain unpruned minimax value, written from the spec's words: terminal
states return `utility(0)`, a minimizing node returns the minimum value over
all legal child nodes, a maximizing node the maximum. -/
def mm_value (g : GameSpec S A) : Nat → Bool → S → V
  | 0, isMax, s =>
    if g.terminal_test s then utilV g s 0 else (if isMax then ⊥ else ⊤)
  | n + 1, isMax, s =>
    if g.terminal_test s then utilV g s 0
    else if isMax then
      listMax ((g.actions s).map (fun a => mm_value g n false (g.result s a)))
    else
      listMin ((g.actions s).map (fun a => mm_value g n true (g.result s a)))

/-- Root loop of plain minimax with the same first-action-wins tie-breaking
(strict improvement only) over the same action ordering. -/
def mm_root (g : GameSpec S A) (n : Nat) (s : S) :
    List A → V → Option A → Option A
  | [], _, best => best
  | a :: rest, bestScore, best =>
    let v := mm_value g n false (g.result s a)
    if bestScore < v then mm_root g n s rest v (some a)
    else mm_root g n s rest bestScore best

/-- Plain unpruned minimax search, the reference point for the refinement
claim: same ordering, same strict-improvement tie-breaking, no pruning. -/
def minimax_search (g : GameSpec S A) (n : Nat) (s : S) : Option A :=
  mm_root g n s (g.actions s) ⊥ none

/-- The game below `s` is exhaustively enumerable within depth `n`, and no
non-terminal node in it is stuck: terminal states end recursion, every
non-terminal state has at least one legal action, and all children are nice
one level lower. -/
def Nice (g : GameSpec S A) : Nat → S → Bool
  | 0, s => g.terminal_test s
  | n + 1, s =>
    g.terminal_test s ||
      (!(g.actions s).isEmpty && (g.actions s).all (fun a => Nice g n (g.result s a)))

/-! ### Opening-book builder (`build_table` / `build_tree` / `simulate`)

Randomness is modelled by an explicit stream `rho : Nat → Nat` consumed at an
explicit position: `random.choice(lst)` at position `i` picks the element at
index `rho i % lst.length` (and fails, like Python, on an empty list).  The
`while` loop of `simulate` is given explicit fuel and returns `none` when the
fuel runs out (never under the niceness hypothesis). -/

/-- `random.choice(lst)` driven by the stream `rho` at position `i`. -/
def choice (rho : Nat → Nat) (i : Nat) (lst : List A) : Option A :=
  lst.get? (rho i % lst.length)

/-- The random descent of `simulate`'s `while` loop: play uniformly random
legal actions from `s` until a terminal state, returning the terminal state
reached together with the next stream position. -/
def playout (g : GameSpec S A) (rho : Nat → Nat) : Nat → Nat → S → Option (S × Nat)
  | 0, i, s => if g.terminal_test s then some (s, i) else none
  | f + 1, i, s =>
    if g.terminal_test s then some (s, i)
    else (choice rho i (g.actions s)).bind fun a => playout g rho f (i + 1) (g.result s a)

/-- The final scoring of `simulate`: `-1 if state.utility(player_id) < 0 else 1`. -/
def score (g : GameSpec S A) (pid : Nat) (t : S) : Int :=
  if g.utility t pid < 0 then -1 else 1

/-- `simulate(state)` of the source: remember `player_id = state._parity`,
play randomly to a terminal state, and score that terminal state for
`player_id`. -/
def simulate (g : GameSpec S A) (rho : Nat → Nat) (f i : Nat) (s : S) :
    Option (Int × Nat) :=
  (playout g rho f i s).map fun p => (score g (g.parity s) p.1, p.2)

/-- A `collections.Counter` over actions: an insertion-ordered association
list from actions to integer tallies. -/
abbrev Counter (A : Type) := List (A × Int)

/-- The `defaultdict(Counter)` book: an insertion-ordered association list
from hashable state representations to counters. -/
abbrev Book (H A : Type) := List (H × Counter A)

/-- `counter[a] += r`: update in place if present, append otherwise. -/
def cInc (c : Counter A) (a : A) (r : Int) : Counter A :=
  match c with
  | [] => [(a, r)]
  | (b, k) :: rest => if a = b then (b, k + r) :: rest else (b, k) :: cInc rest a r

/-- `book[h][a] += r` with `defaultdict` semantics: touching a missing key
creates it. -/
def bInc (book : Book H A) (h : H) (a : A) (r : Int) : Book H A :=
  match book with
  | [] => [(h, [(a, r)])]
  | (h2, c) :: rest =>
    if h = h2 then (h2, cInc c a r) :: rest else (h2, c) :: bInc rest h a r

/-- `build_tree(state, book, depth)` of the source: at depth `0` or at a
terminal state return the negated rollout reward; otherwise pick a uniformly
random action, recurse one depth lower, accumulate the returned reward for
`(state.hashable, action)` in the book, and pass the negated reward up. -/
def build_tree (g : GameSpec S A) (hsh : S → H) (rho : Nat → Nat) (f : Nat) :
    Nat → Nat → S → Book H A → Option (Int × Nat × Book H A)
  | 0, i, s, book => (simulate g rho f i s).map fun p => (-p.1, p.2, book)
  | d + 1, i, s, book =>
    if g.terminal_test s then (simulate g rho f i s).map fun p => (-p.1, p.2, book)
    else
      (choice rho i (g.actions s)).bind fun a =>
        (build_tree g hsh rho f d (i + 1) (g.result s a) book).map fun q =>
          (-q.1, q.2.1, bInc q.2.2 (hsh s) a q.1)

/-- The episode loop of `build_table`: `num_rounds` independent episodes, each
a `build_tree` descent of depth 2 from the canonical initial state, threading
the book and the random stream position. -/
def build_rounds (g : GameSpec S A) (hsh : S → H) (rho : Nat → Nat) (f : Nat)
    (init : S) : Nat → Nat → Book H A → Option (Nat × Book H A)
  | 0, i, book => some (i, book)
  | r + 1, i, book =>
    (build_tree g hsh rho f 2 i init book).bind fun q =>
      build_rounds g hsh rho f init r q.2.1 q.2.2

/-- Maximum of a nonempty list of integers (junk `0` on the empty list, where
Python's `max` raises). -/
def listMaxI : List Int → Int
  | [] => 0
  | [x] => x
  | x :: y :: rest => max x (listMaxI (y :: rest))

/-- `max(counter, key=counter.get)`: the first key, in insertion order, whose
tally attains the maximum tally. -/
def counter_best (c : Counter A) : Option A :=
  (c.find? fun p => decide (p.2 = listMaxI (c.map Prod.snd))).map Prod.fst

/-- The final dict comprehension `{k: max(v, key=v.get) for k, v in book.items()}`. -/
def tableOf : Book H A → Option (List (H × A))
  | [] => some []
  | (h, c) :: rest =>
    (counter_best c).bind fun a => (tableOf rest).map fun t => (h, a) :: t

/-- `build_table(num_rounds)` of the source: run the episodes from the
canonical initial state, then collapse each counter to its best action. -/
def build_table (g : GameSpec S A) (hsh : S → H) (rho : Nat → Nat) (f : Nat)
    (init : S) (num_rounds : Nat) : Option (List (H × A)) :=
  (build_rounds g hsh rho f init num_rounds 0 []).bind fun q => tableOf q.2

/-- States reachable from `init` by legal actions; every state an episode of
the book builder visits is reachable in this sense. -/
inductive Reach (g : GameSpec S A) (init : S) : S → Prop
  | init : Reach g init init
  | step : ∀ s a, Reach g init s → a ∈ g.actions s → Reach g init (g.result s a)

/-- Book invariant: every entry is keyed by the hashable representation of a
reachable state, its counter is nonempty, and every counter key is a legal
action of that state. -/
def GoodBook (g : GameSpec S A) (hsh : S → H) (init : S) (book : Book H A) : Prop :=
  ∀ p ∈ book, ∃ s, Reach g init s ∧ hsh s = p.1 ∧ p.2 ≠ [] ∧
    ∀ q ∈ p.2, q.1 ∈ g.actions s

/-! ### Concrete games used by witnesses and counterexamples -/

/-- A depth-two game with a tie at the root (both root actions have minimax
value 1) and a pruning opportunity in the second subtree. -/
def gW : GameSpec Nat Nat where
  actions s := if s ≤ 2 then [0, 1] else []
  result s a := if s = 0 then 1 + a else if s = 1 then 3 + a else if s = 2 then 5 + a else s
  terminal_test s := decide (3 ≤ s)
  utility s _ := if s = 3 then 1 else if s = 4 then 2 else if s = 5 then 1 else 5
  parity s := s % 2

/-- A game whose root is to be played by player 1, with a terminal state whose
utility differs between the two players. -/
def g3 : GameSpec Nat Nat where
  actions s := if s = 0 then [0] else []
  result _ _ := 1
  terminal_test s := decide (s = 1)
  utility _ p := if p = 0 then -1 else 1
  parity s := if s = 0 then 1 else 0

/-- A three-ply line game: 0 → 1 → 2 → 3, state 3 terminal, won by player 0
(the mover at states 0 and 2). -/
def g8 : GameSpec Nat Nat where
  actions s := if s ≤ 2 then [0] else []
  result s _ := s + 1
  terminal_test s := decide (3 ≤ s)
  utility s p := if s = 3 ∧ p = 0 then 1 else -1
  parity s := s % 2

/-- A one-move game ending in a draw: the terminal state has utility 0 for
both players. -/
def g10 : GameSpec Nat Nat where
  actions s := if s = 0 then [0] else []
  result _ _ := 1
  terminal_test s := decide (s = 1)
  utility _ _ := 0
  parity _ := 0

/-- The constant random stream: always pick index 0. -/
def rho0 : Nat → Nat := fun _ => 0

/-- Written from the spec's words for tie-breaking: the first action, in
`actions()` order, whose value achieves the maximum value. -/
def first_argmax (l : List (A × V)) : Option A :=
  (l.find? fun p => decide (p.2 = listMax (l.map Prod.snd))).map Prod.fst

/-- The strict-improvement selection loop, abstracted over the valuation of
each action: keep the incumbent unless the next value is strictly larger. -/
def genLoop (tv : A → V) : List A → V → Option A → Option A
  | [], _, best => best
  | a :: rest, bestScore, best =>
    if bestScore < tv a then genLoop tv rest (tv a) (some a)
    else genLoop tv rest bestScore best

/-- One step of the claim's description of a minimizing node, as a fold step:
either the node has already returned (left), or it carries the running value
and the running beta (right). -/
def stepMin (child : A → V → V) (alpha : V) (acc : Sum V (V × V)) (a : A) :
    Sum V (V × V) :=
  match acc with
  | Sum.inl r => Sum.inl r
  | Sum.inr vb =>
    let v2 := min vb.1 (child a vb.2)
    if v2 ≤ alpha then Sum.inl v2 else Sum.inr (v2, min vb.2 v2)

/-- The claim's description of a minimizing node: running value initialized
to `+inf`, one `stepMin` per legal action, returning the running value. -/
def min_desc (child : A → V → V) (alpha beta : V) (l : List A) : V :=
  match l.foldl (stepMin child alpha) (Sum.inr (⊤, beta)) with
  | Sum.inl r => r
  | Sum.inr vb => vb.1

/-- One step of the claim's description of a maximizing node. -/
def stepMax (child : A → V → V) (beta : V) (acc : Sum V (V × V)) (a : A) :
    Sum V (V × V) :=
  match acc with
  | Sum.inl r => Sum.inl r
  | Sum.inr va =>
    let v2 := max va.1 (child a va.2)
    if beta ≤ v2 then Sum.inl v2 else Sum.inr (v2, max va.2 v2)

/-- The claim's description of a maximizing node: running value initialized
to `-inf`, one `stepMax` per legal action, returning the running value. -/
def max_desc (child : A → V → V) (alpha beta : V) (l : List A) : V :=
  match l.foldl (stepMax child beta) (Sum.inr (⊥, alpha)) with
  | Sum.inl r => r
  | Sum.inr va => va.1

/-! ## Theorems -/

theorem nice_succ_iff (g : GameSpec S A) (n : Nat) (s : S) :
    Nice g (n + 1) s = true ↔
      g.terminal_test s = true ∨
        (g.actions s ≠ [] ∧ ∀ a ∈ g.actions s, Nice g n (g.result s a) = true) := by
  simp [Nice, List.isEmpty_iff, List.all_eq_true]

theorem nice_succ_of_nice (g : GameSpec S A) :
    ∀ n (s : S), Nice g n s = true → Nice g (n + 1) s = true := by
  intro n
  induction n with
  | zero =>
    intro s h
    exact (nice_succ_iff g 0 s).mpr (Or.inl h)
  | succ n ih =>
    intro s h
    rcases (nice_succ_iff g n s).mp h with h | ⟨hne, hall⟩
    · exact (nice_succ_iff g (n + 1) s).mpr (Or.inl h)
    · exact (nice_succ_iff g (n + 1) s).mpr
        (Or.inr ⟨hne, fun a ha => ih _ (hall a ha)⟩)

/-- Knuth-Moore style characterization of the `min_value` sibling loop.
`tv` gives the true (unpruned) value of each remaining child, `m` the true
minimum over the already-processed siblings, `v` the running value, `bcur`
the running beta.  The loop's result is exact strictly inside the window
`(alpha, beta)`, an upper bound on the true minimum when it fails low
(`≤ alpha`), and a lower bound when it fails high (`≥ beta`). -/
theorem minLoop_bounds (child : A → V → V) (tv : A → V) (alpha beta : V)
    (hab : alpha < beta) :
    ∀ (l : List A) (v bcur m : V),
      (∀ a ∈ l, ∀ b', alpha < b' →
        (child a b' ≤ alpha → tv a ≤ child a b') ∧
        (b' ≤ child a b' → child a b' ≤ tv a) ∧
        (alpha < child a b' → child a b' < b' → child a b' = tv a)) →
      bcur = min beta v → alpha < v →
      (v < beta → v = m) → (beta ≤ v → beta ≤ m ∧ v ≤ m) →
      (minLoop child alpha l v bcur ≤ alpha →
        min m (listMin (l.map tv)) ≤ minLoop child alpha l v bcur) ∧
      (beta ≤ minLoop child alpha l v bcur →
        minLoop child alpha l v bcur ≤ min m (listMin (l.map tv))) ∧
      (alpha < minLoop child alpha l v bcur → minLoop child alpha l v bcur < beta →
        minLoop child alpha l v bcur = min m (listMin (l.map tv))) := by
  intro l
  induction l with
  | nil =>
    intro v bcur m hch hb hv h3 h4
    simp only [minLoop, List.map_nil, listMin]
    rw [min_eq_left (le_top : m ≤ ⊤)]
    exact ⟨fun hle => absurd hle (not_le.mpr hv), fun hbv => (h4 hbv).2,
      fun _ hvb => h3 hvb⟩
  | cons a rest ih =>
    intro v bcur m hch hb hv h3 h4
    have habc : alpha < bcur := by rw [hb]; exact lt_min hab hv
    obtain ⟨hc1, hc2, hc3⟩ := hch a (List.mem_cons_self a rest) bcur habc
    set rc := child a bcur with hrc
    have hunfold : minLoop child alpha (a :: rest) v bcur =
        if min v rc ≤ alpha then min v rc
        else minLoop child alpha rest (min v rc) (min bcur (min v rc)) := rfl
    have hlist : listMin ((a :: rest).map tv) = min (tv a) (listMin (rest.map tv)) := rfl
    rw [hunfold, hlist, ← min_assoc m (tv a) (listMin (rest.map tv))]
    by_cases hcut : min v rc ≤ alpha
    · rw [if_pos hcut]
      have hrcle : rc ≤ alpha := by
        rcases min_le_iff.mp hcut with h | h
        · exact absurd h (not_le.mpr hv)
        · exact h
      have hv2 : min v rc = rc := min_eq_right (hrcle.trans hv.le)
      rw [hv2]
      refine ⟨fun _ => ?_, fun hbr => absurd hbr (not_le.mpr (lt_of_le_of_lt hrcle hab)),
        fun har _ => absurd har (not_lt.mpr hrcle)⟩
      exact le_trans (le_trans (min_le_left _ _) (min_le_right _ _)) (hc1 hrcle)
    · rw [if_neg hcut]
      have hvrc : alpha < min v rc := not_le.mp hcut
      have hrca : alpha < rc := (lt_min_iff.mp hvrc).2
      have hb' : min bcur (min v rc) = min beta (min v rc) := by
        rw [hb, min_assoc, ← min_assoc v v rc, min_self]
      have hinv : (min v rc < beta → min v rc = min m (tv a)) ∧
          (beta ≤ min v rc → beta ≤ min m (tv a) ∧ min v rc ≤ min m (tv a)) := by
        by_cases hvb : v < beta
        · have hm : v = m := h3 hvb
          have hbc : bcur = v := by rw [hb]; exact min_eq_right hvb.le
          by_cases hrv : rc < v
          · have hta : rc = tv a := hc3 hrca (by rw [hbc]; exact hrv)
            have hv2 : min v rc = rc := min_eq_right hrv.le
            have hm2 : min m (tv a) = rc := by rw [← hm, ← hta]; exact hv2
            constructor
            · intro _; rw [hv2, hm2]
            · intro hbr; rw [hv2] at hbr
              exact absurd hbr (not_le.mpr (hrv.trans hvb))
          · have hv2 : min v rc = v := min_eq_left (not_lt.mp hrv)
            have hta : rc ≤ tv a := hc2 (by rw [hbc]; exact not_lt.mp hrv)
            have hm2 : min m (tv a) = v := by
              rw [← hm]; exact min_eq_left ((not_lt.mp hrv).trans hta)
            constructor
            · intro _; rw [hv2, hm2]
            · intro hbr; rw [hv2] at hbr; exact absurd hbr (not_le.mpr hvb)
        · have hvb' : beta ≤ v := not_lt.mp hvb
          obtain ⟨hbm, hvm⟩ := h4 hvb'
          have hbc : bcur = beta := by rw [hb]; exact min_eq_left hvb'
          by_cases hrv : rc < beta
          · have hta : rc = tv a := hc3 hrca (by rw [hbc]; exact hrv)
            have hv2 : min v rc = rc := min_eq_right (hrv.le.trans hvb')
            have hm2 : min m (tv a) = rc := by
              rw [← hta]; exact min_eq_right (hrv.le.trans hbm)
            constructor
            · intro _; rw [hv2, hm2]
            · intro hbr; rw [hv2] at hbr; exact absurd hbr (not_le.mpr hrv)
          · have hrv' : beta ≤ rc := not_lt.mp hrv
            have hta : rc ≤ tv a := hc2 (by rw [hbc]; exact hrv')
            constructor
            · intro hlt; exact absurd hlt (not_lt.mpr (le_min hvb' hrv'))
            · intro _
              exact ⟨le_min hbm (hrv'.trans hta),
                le_min ((min_le_left _ _).trans hvm) ((min_le_right _ _).trans hta)⟩
      exact ih (min v rc) (min bcur (min v rc)) (min m (tv a))
        (fun x hx => hch x (List.mem_cons_of_mem a hx)) hb' hvrc hinv.1 hinv.2

/-- Knuth-Moore style characterization of the `max_value` sibling loop,
symmetric to `minLoop_bounds`: `m` is the true maximum over the processed
siblings, `v` the running value, `acur` the running alpha. -/
theorem maxLoop_bounds (child : A → V → V) (tv : A → V) (alpha beta : V)
    (hab : alpha < beta) :
    ∀ (l : List A) (v acur m : V),
      (∀ a ∈ l, ∀ a', a' < beta →
        (child a a' ≤ a' → tv a ≤ child a a') ∧
        (beta ≤ child a a' → child a a' ≤ tv a) ∧
        (a' < child a a' → child a a' < beta → child a a' = tv a)) →
      acur = max alpha v → v < beta →
      (alpha < v → v = m) → (v ≤ alpha → m ≤ alpha ∧ m ≤ v) →
      (maxLoop child beta l v acur ≤ alpha →
        max m (listMax (l.map tv)) ≤ maxLoop child beta l v acur) ∧
      (beta ≤ maxLoop child beta l v acur →
        maxLoop child beta l v acur ≤ max m (listMax (l.map tv))) ∧
      (alpha < maxLoop child beta l v acur → maxLoop child beta l v acur < beta →
        maxLoop child beta l v acur = max m (listMax (l.map tv))) := by
  intro l
  induction l with
  | nil =>
    intro v acur m hch ha hv h3 h4
    simp only [maxLoop, List.map_nil, listMax]
    rw [max_eq_left (bot_le : (⊥ : V) ≤ m)]
    exact ⟨fun hle => (h4 hle).2, fun hbv => absurd hbv (not_le.mpr hv),
      fun hav _ => h3 hav⟩
  | cons a rest ih =>
    intro v acur m hch ha hv h3 h4
    have habc : acur < beta := by rw [ha]; exact max_lt hab hv
    obtain ⟨hc1, hc2, hc3⟩ := hch a (List.mem_cons_self a rest) acur habc
    set rc := child a acur with hrc
    have hunfold : maxLoop child beta (a :: rest) v acur =
        if beta ≤ max v rc then max v rc
        else maxLoop child beta rest (max v rc) (max acur (max v rc)) := rfl
    have hlist : listMax ((a :: rest).map tv) = max (tv a) (listMax (rest.map tv)) := rfl
    rw [hunfold, hlist, ← max_assoc m (tv a) (listMax (rest.map tv))]
    by_cases hcut : beta ≤ max v rc
    · rw [if_pos hcut]
      have hrcge : beta ≤ rc := by
        rcases le_max_iff.mp hcut with h | h
        · exact absurd h (not_le.mpr hv)
        · exact h
      have hv2 : max v rc = rc := max_eq_right (hv.le.trans hrcge)
      rw [hv2]
      refine ⟨fun hle => absurd hle (not_le.mpr (lt_of_lt_of_le hab hrcge)),
        fun _ => ?_, fun _ hr => absurd hr (not_lt.mpr hrcge)⟩
      exact le_trans (hc2 hrcge) (le_trans (le_max_right _ _) (le_max_left _ _))
    · rw [if_neg hcut]
      have hvrc : max v rc < beta := not_le.mp hcut
      have hrcb : rc < beta := (max_lt_iff.mp hvrc).2
      have ha' : max acur (max v rc) = max alpha (max v rc) := by
        rw [ha, max_assoc, ← max_assoc v v rc, max_self]
      have hinv : (alpha < max v rc → max v rc = max m (tv a)) ∧
          (max v rc ≤ alpha → max m (tv a) ≤ alpha ∧ max m (tv a) ≤ max v rc) := by
        by_cases hav : alpha < v
        · have hm : v = m := h3 hav
          have hac : acur = v := by rw [ha]; exact max_eq_right hav.le
          by_cases hrv : v < rc
          · have hta : rc = tv a := hc3 (by rw [hac]; exact hrv) hrcb
            have hv2 : max v rc = rc := max_eq_right hrv.le
            have hm2 : max m (tv a) = rc := by rw [← hm, ← hta]; exact hv2
            constructor
            · intro _; rw [hv2, hm2]
            · intro hbr; rw [hv2] at hbr
              exact absurd hbr (not_le.mpr (hav.trans hrv))
          · have hv2 : max v rc = v := max_eq_left (not_lt.mp hrv)
            have hta : tv a ≤ rc := hc1 (by rw [hac]; exact not_lt.mp hrv)
            have hm2 : max m (tv a) = v := by
              rw [← hm]; exact max_eq_left (hta.trans (not_lt.mp hrv))
            constructor
            · intro _; rw [hv2, hm2]
            · intro hbr; rw [hv2] at hbr; exact absurd hbr (not_le.mpr hav)
        · have hav' : v ≤ alpha := not_lt.mp hav
          obtain ⟨ham, hmv⟩ := h4 hav'
          have hac : acur = alpha := by rw [ha]; exact max_eq_left hav'
          by_cases hra : alpha < rc
          · have hta : rc = tv a := hc3 (by rw [hac]; exact hra) hrcb
            have hv2 : max v rc = rc := max_eq_right (hav'.trans hra.le)
            have hm2 : max m (tv a) = rc := by
              rw [← hta]; exact max_eq_right (ham.trans hra.le)
            constructor
            · intro _; rw [hv2, hm2]
            · intro hbr; rw [hv2] at hbr; exact absurd hbr (not_le.mpr hra)
          · have hra' : rc ≤ alpha := not_lt.mp hra
            have hta : tv a ≤ rc := hc1 (by rw [hac]; exact hra')
            constructor
            · intro hlt; exact absurd hlt (not_lt.mpr (max_le hav' hra'))
            · intro _
              exact ⟨max_le ham (hta.trans hra'),
                max_le (hmv.trans (le_max_left _ _)) (hta.trans (le_max_right _ _))⟩
      exact ih (max v rc) (max acur (max v rc)) (max m (tv a))
        (fun x hx => hch x (List.mem_cons_of_mem a hx)) ha' hvrc hinv.1 hinv.2

/-- Knuth-Moore bounds for the pruning evaluators against plain minimax:
inside the open window the pruned value is exact, failing low it upper-bounds
the true minimax value, failing high it lower-bounds it. -/
theorem ab_bounds (g : GameSpec S A) :
    ∀ (n : Nat) (isMax : Bool) (s : S) (alpha beta : V),
      Nice g n s = true → alpha < beta →
      (ab_value g n isMax s alpha beta ≤ alpha →
        mm_value g n isMax s ≤ ab_value g n isMax s alpha beta) ∧
      (beta ≤ ab_value g n isMax s alpha beta →
        ab_value g n isMax s alpha beta ≤ mm_value g n isMax s) ∧
      (alpha < ab_value g n isMax s alpha beta →
        ab_value g n isMax s alpha beta < beta →
        ab_value g n isMax s alpha beta = mm_value g n isMax s) := by
  intro n
  induction n with
  | zero =>
    intro isMax s alpha beta hnice hab
    have hterm : g.terminal_test s = true := hnice
    simp only [ab_value, mm_value, hterm, if_true]
    exact ⟨fun _ => le_refl _, fun _ => le_refl _, fun _ _ => trivial⟩
  | succ n ih =>
    intro isMax s alpha beta hnice hab
    by_cases hterm : g.terminal_test s = true
    · simp only [ab_value, mm_value, hterm, if_true]
      exact ⟨fun _ => le_refl _, fun _ => le_refl _, fun _ _ => trivial⟩
    · have hterm' : g.terminal_test s = false := by
        revert hterm; cases g.terminal_test s <;> simp
      rcases (nice_succ_iff g n s).mp hnice with h | ⟨_, hall⟩
      · exact absurd h hterm
      cases isMax with
      | false =>
        have hunfold : ab_value g (n + 1) false s alpha beta =
            minLoop (fun a be => ab_value g n true (g.result s a) alpha be) alpha
              (g.actions s) ⊤ beta := by
          simp [ab_value, hterm']
        have hmm : mm_value g (n + 1) false s =
            listMin ((g.actions s).map (fun a => mm_value g n true (g.result s a))) := by
          simp [mm_value, hterm']
        rw [hunfold, hmm]
        have hmain := minLoop_bounds
          (fun a be => ab_value g n true (g.result s a) alpha be)
          (fun a => mm_value g n true (g.result s a)) alpha beta hab
          (g.actions s) ⊤ beta ⊤
          (fun a ha b' hb' => ih true (g.result s a) alpha b' (hall a ha) hb')
          (min_eq_left le_top).symm
          (lt_of_lt_of_le hab le_top)
          (fun h => absurd h (not_lt.mpr le_top))
          (fun h => ⟨h, le_refl _⟩)
        rw [top_inf_eq] at hmain
        exact hmain
      | true =>
        have hunfold : ab_value g (n + 1) true s alpha beta =
            maxLoop (fun a al => ab_value g n false (g.result s a) al beta) beta
              (g.actions s) ⊥ alpha := by
          simp [ab_value, hterm']
        have hmm : mm_value g (n + 1) true s =
            listMax ((g.actions s).map (fun a => mm_value g n false (g.result s a))) := by
          simp [mm_value, hterm']
        rw [hunfold, hmm]
        have hmain := maxLoop_bounds
          (fun a al => ab_value g n false (g.result s a) al beta)
          (fun a => mm_value g n false (g.result s a)) alpha beta hab
          (g.actions s) ⊥ alpha ⊥
          (fun a ha a' ha' => ih false (g.result s a) a' beta (hall a ha) ha')
          (max_eq_left bot_le).symm
          (lt_of_le_of_lt bot_le hab)
          (fun h => absurd h (not_lt.mpr bot_le))
          (fun _ => ⟨bot_le, le_refl _⟩)
        rw [bot_sup_eq] at hmain
        exact hmain

theorem bot_lt_listMin : ∀ l : List V, (∀ x ∈ l, ⊥ < x) → ⊥ < listMin l := by
  intro l
  induction l with
  | nil => intro _; exact bot_lt_top
  | cons x xs ih =>
    intro h
    exact lt_min (h x (List.mem_cons_self x xs))
      (ih fun y hy => h y (List.mem_cons_of_mem x hy))

theorem listMin_lt_top : ∀ l : List V, l ≠ [] → (∀ x ∈ l, x < ⊤) → listMin l < ⊤ := by
  intro l hne h
  cases l with
  | nil => exact absurd rfl hne
  | cons x xs =>
    exact lt_of_le_of_lt (min_le_left _ _) (h x (List.mem_cons_self x xs))

theorem listMax_lt_top : ∀ l : List V, (∀ x ∈ l, x < ⊤) → listMax l < ⊤ := by
  intro l
  induction l with
  | nil => intro _; exact bot_lt_top
  | cons x xs ih =>
    intro h
    exact max_lt (h x (List.mem_cons_self x xs))
      (ih fun y hy => h y (List.mem_cons_of_mem x hy))

theorem bot_lt_listMax : ∀ l : List V, l ≠ [] → (∀ x ∈ l, ⊥ < x) → ⊥ < listMax l := by
  intro l hne h
  cases l with
  | nil => exact absurd rfl hne
  | cons x xs =>
    exact lt_of_lt_of_le (h x (List.mem_cons_self x xs)) (le_max_left _ _)

theorem intV_bounds (z : ℤ) : ⊥ < intV z ∧ intV z < ⊤ :=
  ⟨WithBot.bot_lt_coe _, WithBot.coe_lt_coe.mpr (WithTop.coe_lt_top z)⟩

/-- On a nice game every minimax value is finite: strictly between the two
infinities. -/
theorem mm_finite (g : GameSpec S A) :
    ∀ (n : Nat) (b : Bool) (s : S), Nice g n s = true →
      ⊥ < mm_value g n b s ∧ mm_value g n b s < ⊤ := by
  intro n
  induction n with
  | zero =>
    intro b s hnice
    have hterm : g.terminal_test s = true := hnice
    simp only [mm_value, hterm, if_true]
    exact intV_bounds _
  | succ n ih =>
    intro b s hnice
    by_cases hterm : g.terminal_test s = true
    · simp only [mm_value, hterm, if_true]
      exact intV_bounds _
    · rcases (nice_succ_iff g n s).mp hnice with h | ⟨hne, hall⟩
      · exact absurd h hterm
      have hterm' : g.terminal_test s = false := by
        revert hterm; cases g.terminal_test s <;> simp
      have hmapne : ∀ f : A → V, (g.actions s).map f ≠ [] := by
        intro f h
        exact hne (List.map_eq_nil_iff.mp h)
      have hmem : ∀ (f : A → V), (∀ a ∈ g.actions s, ⊥ < f a ∧ f a < ⊤) →
          ∀ x ∈ (g.actions s).map f, ⊥ < x ∧ x < ⊤ := by
        intro f hf x hx
        obtain ⟨a, ha, rfl⟩ := List.mem_map.mp hx
        exact hf a ha
      cases b with
      | false =>
        simp only [mm_value, hterm', Bool.false_eq_true, if_false]
        have h1 := hmem (fun a => mm_value g n true (g.result s a))
          (fun a ha => ih true (g.result s a) (hall a ha))
        exact ⟨bot_lt_listMin _ (fun x hx => (h1 x hx).1),
          listMin_lt_top _ (hmapne _) (fun x hx => (h1 x hx).2)⟩
      | true =>
        simp only [mm_value, hterm', Bool.false_eq_true, if_false, if_true]
        have h1 := hmem (fun a => mm_value g n false (g.result s a))
          (fun a ha => ih false (g.result s a) (hall a ha))
        exact ⟨bot_lt_listMax _ (hmapne _) (fun x hx => (h1 x hx).1),
          listMax_lt_top _ (fun x hx => (h1 x hx).2)⟩

/-- The pruned root loop and the plain minimax root loop walk in lockstep:
with the running alpha equal to the running best score (and finite), they
take the same branch at every action and keep the same incumbent. -/
theorem ab_root_eq_mm_root (g : GameSpec S A) (n : Nat) (s : S) :
    ∀ (l : List A) (alpha bs : V) (bm : Option A),
      (∀ a ∈ l, Nice g n (g.result s a) = true) →
      alpha = bs → bs < ⊤ →
      ab_root g n s l alpha bs bm = mm_root g n s l bs bm := by
  intro l
  induction l with
  | nil => intro alpha bs bm _ _ _; rfl
  | cons a rest ih =>
    intro alpha bs bm hall heq hlt
    have hrest : ∀ x ∈ rest, Nice g n (g.result s x) = true :=
      fun x hx => hall x (List.mem_cons_of_mem a hx)
    have hn := hall a (List.mem_cons_self a rest)
    have halt : alpha < ⊤ := by rw [heq]; exact hlt
    obtain ⟨hcl1, hcl2, hcl3⟩ := ab_bounds g n false (g.result s a) alpha ⊤ hn halt
    obtain ⟨hfin1, hfin2⟩ := mm_finite g n false (g.result s a) hn
    set v := ab_value g n false (g.result s a) alpha ⊤ with hv
    set t := mm_value g n false (g.result s a) with ht
    have hab_unf : ab_root g n s (a :: rest) alpha bs bm =
        if bs < v then ab_root g n s rest (max alpha v) v (some a)
        else ab_root g n s rest (max alpha v) bs bm := rfl
    have hmm_unf : mm_root g n s (a :: rest) bs bm =
        if bs < t then mm_root g n s rest t (some a)
        else mm_root g n s rest bs bm := rfl
    by_cases hav : alpha < v
    · have hvt : v = t := by
        by_cases hvtop : v < ⊤
        · exact hcl3 hav hvtop
        · have h1 : ⊤ ≤ v := not_lt.mp hvtop
          exact absurd (h1.trans (hcl2 h1)) (not_le.mpr hfin2)
      have hbv : bs < v := by rw [← heq]; exact hav
      rw [hab_unf, if_pos hbv, hmm_unf, if_pos (hvt ▸ hbv)]
      have hmax : max alpha v = v := max_eq_right hav.le
      rw [hmax, hvt]
      exact ih t t (some a) hrest rfl hfin2
    · have hva : v ≤ alpha := not_lt.mp hav
      have hta : t ≤ bs := (hcl1 hva).trans (heq ▸ hva)
      have hbv : ¬ bs < v := not_lt.mpr (heq ▸ hva)
      rw [hab_unf, if_neg hbv, hmm_unf, if_neg (not_lt.mpr hta)]
      have hmax : max alpha v = alpha := max_eq_left hva
      rw [hmax]
      exact ih alpha bs bm hrest heq hlt

/-- The pruned search agrees with plain minimax on nice non-terminal states:
shared helper behind the refinement claims. -/
theorem ab_search_eq_mm_search (g : GameSpec S A) (n : Nat) (s : S)
    (hnice : Nice g (n + 1) s = true) (hterm : g.terminal_test s = false) :
    alpha_beta_search g n s = minimax_search g n s := by
  rcases (nice_succ_iff g n s).mp hnice with h | ⟨_, hall⟩
  · rw [hterm] at h; cases h
  · exact ab_root_eq_mm_root g n s (g.actions s) ⊥ ⊥ none hall rfl bot_lt_top

theorem mm_root_ne_none (g : GameSpec S A) (n : Nat) (s : S) :
    ∀ (l : List A) (bs : V) (x : A), mm_root g n s l bs (some x) ≠ none := by
  intro l
  induction l with
  | nil => intro bs x h; cases h
  | cons a rest ih =>
    intro bs x
    by_cases h : bs < mm_value g n false (g.result s a)
    · show (if bs < mm_value g n false (g.result s a) then _ else _) ≠ none
      rw [if_pos h]; exact ih _ _
    · show (if bs < mm_value g n false (g.result s a) then _ else _) ≠ none
      rw [if_neg h]; exact ih _ _

theorem mm_root_mem (g : GameSpec S A) (n : Nat) (s : S) :
    ∀ (l : List A) (bs : V) (bm : Option A) (x : A),
      (∀ y, bm = some y → y ∈ g.actions s) → (∀ a ∈ l, a ∈ g.actions s) →
      mm_root g n s l bs bm = some x → x ∈ g.actions s := by
  intro l
  induction l with
  | nil => intro bs bm x hbm _ h; exact hbm x h
  | cons a rest ih =>
    intro bs bm x hbm hl
    by_cases h : bs < mm_value g n false (g.result s a)
    · show (if bs < mm_value g n false (g.result s a) then _ else _) = some x → _
      rw [if_pos h]
      exact ih _ _ x (fun y hy => by cases hy; exact hl a (List.mem_cons_self a rest))
        (fun b hb => hl b (List.mem_cons_of_mem a hb))
    · show (if bs < mm_value g n false (g.result s a) then _ else _) = some x → _
      rw [if_neg h]
      exact ih _ _ x hbm (fun b hb => hl b (List.mem_cons_of_mem a hb))

/-- Plain minimax search on a nice non-terminal state returns a legal action:
shared helper behind the membership claim. -/
theorem mm_search_mem (g : GameSpec S A) (n : Nat) (s : S)
    (hnice : Nice g (n + 1) s = true) (hterm : g.terminal_test s = false) :
    ∃ a, minimax_search g n s = some a ∧ a ∈ g.actions s := by
  rcases (nice_succ_iff g n s).mp hnice with h | ⟨hne, hall⟩
  · rw [hterm] at h; cases h
  · obtain ⟨a, rest, hl⟩ : ∃ a rest, g.actions s = a :: rest := by
      cases hcase : g.actions s with
      | nil => exact absurd hcase hne
      | cons a rest => exact ⟨a, rest, rfl⟩
    have hfin := mm_finite g n false (g.result s a)
      (hall a (by rw [hl]; exact List.mem_cons_self a rest))
    have hstep : minimax_search g n s =
        mm_root g n s rest (mm_value g n false (g.result s a)) (some a) := by
      show mm_root g n s (g.actions s) ⊥ none = _
      rw [hl]
      show (if (⊥ : V) < mm_value g n false (g.result s a) then _ else _) = _
      rw [if_pos hfin.1]
    have hne2 : minimax_search g n s ≠ none := by
      rw [hstep]; exact mm_root_ne_none g n s rest _ a
    obtain ⟨x, hx⟩ := Option.ne_none_iff_exists'.mp hne2
    refine ⟨x, hx, ?_⟩
    refine mm_root_mem g n s rest (mm_value g n false (g.result s a)) (some a) x
      (fun y hy => by cases hy; rw [hl]; exact List.mem_cons_self a rest)
      (fun b hb => by rw [hl]; exact List.mem_cons_of_mem a hb) ?_
    rw [← hstep]; exact hx

/-- The minimax root loop is an instance of the generic strict-improvement
loop valued by the children's minimax values. -/
theorem mm_root_eq_genLoop (g : GameSpec S A) (n : Nat) (s : S) :
    ∀ (l : List A) (bs : V) (bm : Option A),
      mm_root g n s l bs bm =
        genLoop (fun a => mm_value g n false (g.result s a)) l bs bm := by
  intro l
  induction l with
  | nil => intro bs bm; rfl
  | cons a rest ih =>
    intro bs bm
    simp only [mm_root, genLoop]
    split_ifs <;> exact ih _ _

/-- The generic strict-improvement loop returns the first action attaining
the maximum value when that maximum beats the incumbent score, and keeps the
incumbent otherwise. -/
theorem genLoop_argmax (tv : A → V) :
    ∀ (l : List A) (bs : V) (bm : Option A),
      genLoop tv l bs bm =
        if listMax (l.map tv) ≤ bs then bm
        else l.find? fun a => decide (tv a = listMax (l.map tv)) := by
  intro l
  induction l with
  | nil =>
    intro bs bm
    rw [if_pos]
    · rfl
    · exact bot_le
  | cons a rest ih =>
    intro bs bm
    have hM : listMax ((a :: rest).map tv) = max (tv a) (listMax (rest.map tv)) := rfl
    have hstep : genLoop tv (a :: rest) bs bm =
        if bs < tv a then genLoop tv rest (tv a) (some a)
        else genLoop tv rest bs bm := rfl
    rw [hstep, hM]
    by_cases hba : bs < tv a
    · rw [if_pos hba, ih (tv a) (some a)]
      rw [if_neg (not_le.mpr (lt_of_lt_of_le hba (le_max_left _ _)))]
      by_cases hm : listMax (rest.map tv) ≤ tv a
      · rw [if_pos hm]
        have hMa : max (tv a) (listMax (rest.map tv)) = tv a := max_eq_left hm
        rw [List.find?_cons_of_pos]
        exact decide_eq_true hMa.symm
      · rw [if_neg hm]
        have hMa : max (tv a) (listMax (rest.map tv)) = listMax (rest.map tv) :=
          max_eq_right (not_le.mp hm).le
        rw [hMa, List.find?_cons_of_neg]
        simp only [decide_eq_true_eq]
        exact ne_of_lt (not_le.mp hm)
    · have hba' : tv a ≤ bs := not_lt.mp hba
      rw [if_neg hba, ih bs bm]
      by_cases hm : listMax (rest.map tv) ≤ bs
      · rw [if_pos hm, if_pos (max_le hba' hm)]
      · rw [if_neg hm, if_neg (fun h =>
          hm ((le_max_right (tv a) (listMax (rest.map tv))).trans h))]
        have hMa : max (tv a) (listMax (rest.map tv)) = listMax (rest.map tv) :=
          max_eq_right (hba'.trans (not_le.mp hm).le)
        rw [hMa, List.find?_cons_of_neg]
        simp only [decide_eq_true_eq]
        exact ne_of_lt (lt_of_le_of_lt hba' (not_le.mp hm))

theorem foldl_stepMin_inl (child : A → V → V) (alpha : V) (r : V) :
    ∀ l : List A, l.foldl (stepMin child alpha) (Sum.inl r) = Sum.inl r := by
  intro l
  induction l with
  | nil => rfl
  | cons a rest ih => exact ih

theorem minLoop_eq_desc_aux (child : A → V → V) (alpha : V) :
    ∀ (l : List A) (v beta : V),
      (match l.foldl (stepMin child alpha) (Sum.inr (v, beta)) with
        | Sum.inl r => r
        | Sum.inr vb => vb.1) = minLoop child alpha l v beta := by
  intro l
  induction l with
  | nil => intro v beta; rfl
  | cons a rest ih =>
    intro v beta
    rw [List.foldl_cons]
    by_cases h : min v (child a beta) ≤ alpha
    · have hst : stepMin child alpha (Sum.inr (v, beta)) a
          = Sum.inl (min v (child a beta)) := by
        simp [stepMin, h]
      have hlp : minLoop child alpha (a :: rest) v beta = min v (child a beta) := by
        simp [minLoop, h]
      rw [hst, foldl_stepMin_inl, hlp]
    · have hst : stepMin child alpha (Sum.inr (v, beta)) a
          = Sum.inr (min v (child a beta), min beta (min v (child a beta))) := by
        simp [stepMin, h]
      have hlp : minLoop child alpha (a :: rest) v beta
          = minLoop child alpha rest (min v (child a beta))
              (min beta (min v (child a beta))) := by
        simp [minLoop, h]
      rw [hst, ih, hlp]

theorem foldl_stepMax_inl (child : A → V → V) (beta : V) (r : V) :
    ∀ l : List A, l.foldl (stepMax child beta) (Sum.inl r) = Sum.inl r := by
  intro l
  induction l with
  | nil => rfl
  | cons a rest ih => exact ih

theorem maxLoop_eq_desc_aux (child : A → V → V) (beta : V) :
    ∀ (l : List A) (v acur : V),
      (match l.foldl (stepMax child beta) (Sum.inr (v, acur)) with
        | Sum.inl r => r
        | Sum.inr va => va.1) = maxLoop child beta l v acur := by
  intro l
  induction l with
  | nil => intro v acur; rfl
  | cons a rest ih =>
    intro v acur
    rw [List.foldl_cons]
    by_cases h : beta ≤ max v (child a acur)
    · have hst : stepMax child beta (Sum.inr (v, acur)) a
          = Sum.inl (max v (child a acur)) := by
        simp [stepMax, h]
      have hlp : maxLoop child beta (a :: rest) v acur = max v (child a acur) := by
        simp [maxLoop, h]
      rw [hst, foldl_stepMax_inl, hlp]
    · have hst : stepMax child beta (Sum.inr (v, acur)) a
          = Sum.inr (max v (child a acur), max acur (max v (child a acur))) := by
        simp [stepMax, h]
      have hlp : maxLoop child beta (a :: rest) v acur
          = maxLoop child beta rest (max v (child a acur))
              (max acur (max v (child a acur))) := by
        simp [maxLoop, h]
      rw [hst, ih, hlp]

theorem min_desc_eq (child : A → V → V) (alpha beta : V) (l : List A) :
    min_desc child alpha beta l = minLoop child alpha l ⊤ beta :=
  minLoop_eq_desc_aux child alpha l ⊤ beta

theorem max_desc_eq (child : A → V → V) (alpha beta : V) (l : List A) :
    max_desc child alpha beta l = maxLoop child beta l ⊥ alpha :=
  maxLoop_eq_desc_aux child beta l ⊥ alpha

theorem find?_pair_map (tv : A → V) (M : V) :
    ∀ l : List A,
      ((l.map fun a => (a, tv a)).find? fun p => decide (p.2 = M)).map Prod.fst =
        l.find? fun a => decide (tv a = M) := by
  intro l
  induction l with
  | nil => rfl
  | cons a rest ih =>
    by_cases h : tv a = M
    · have h1 : List.find? (fun p => decide (p.2 = M))
          ((a, tv a) :: rest.map (fun a => (a, tv a))) = some (a, tv a) :=
        List.find?_cons_of_pos _ (decide_eq_true h)
      have h2 : List.find? (fun x => decide (tv x = M)) (a :: rest) = some a :=
        List.find?_cons_of_pos _ (decide_eq_true h)
      show Option.map Prod.fst (List.find? (fun p => decide (p.2 = M))
          ((a, tv a) :: rest.map (fun a => (a, tv a)))) = _
      rw [h1, h2]
      rfl
    · have h1 : List.find? (fun p => decide (p.2 = M))
          ((a, tv a) :: rest.map (fun a => (a, tv a)))
          = List.find? (fun p => decide (p.2 = M)) (rest.map (fun a => (a, tv a))) :=
        List.find?_cons_of_neg _ (by simpa using h)
      have h2 : List.find? (fun x => decide (tv x = M)) (a :: rest)
          = List.find? (fun x => decide (tv x = M)) rest :=
        List.find?_cons_of_neg _ (by simpa using h)
      show Option.map Prod.fst (List.find? (fun p => decide (p.2 = M))
          ((a, tv a) :: rest.map (fun a => (a, tv a)))) = _
      rw [h1, h2]
      exact ih

theorem first_argmax_map (tv : A → V) (l : List A) :
    first_argmax (l.map fun a => (a, tv a)) =
      l.find? fun a => decide (tv a = listMax (l.map tv)) := by
  unfold first_argmax
  have hsnd : (l.map fun a => (a, tv a)).map Prod.snd = l.map tv := by
    rw [List.map_map]; rfl
  rw [hsnd]
  exact find?_pair_map tv (listMax (l.map tv)) l

/-! ### The claims about the alpha-beta search -/

/-- C1: for every state of an exhaustively enumerable small game on which the
search is invoked (non-terminal, at least one legal action), the action
returned by `alpha_beta_search` equals the action chosen by plain unpruned
minimax with the same first-action-wins tie-breaking over the same `actions()`
ordering. -/
theorem alpha_beta_matches_minimax (g : GameSpec S A) (n : Nat) (s : S)
    (hnice : Nice g (n + 1) s = true) (hterm : g.terminal_test s = false) :
    alpha_beta_search g n s = minimax_search g n s :=
  ab_search_eq_mm_search g n s hnice hterm

/-- Witness for C1 on the concrete game `gW`. -/
theorem alpha_beta_matches_minimax_witness :
    Nice gW 2 0 = true ∧ gW.terminal_test 0 = false ∧
      alpha_beta_search gW 1 0 = minimax_search gW 1 0 :=
  ⟨by decide, by decide, alpha_beta_matches_minimax gW 1 0 (by decide) (by decide)⟩

/-- C2: on every nice non-terminal state with at least one legal action,
`alpha_beta_search` returns `some` action belonging to the state's legal
action set (never `none`). -/
theorem alpha_beta_returns_legal_action (g : GameSpec S A) (n : Nat) (s : S)
    (hnice : Nice g (n + 1) s = true) (hterm : g.terminal_test s = false) :
    ∃ a, alpha_beta_search g n s = some a ∧ a ∈ g.actions s := by
  rw [ab_search_eq_mm_search g n s hnice hterm]
  exact mm_search_mem g n s hnice hterm

/-- Witness for C2 on the concrete game `gW`. -/
theorem alpha_beta_returns_legal_action_witness :
    Nice gW 2 0 = true ∧ gW.terminal_test 0 = false ∧
      ∃ a, alpha_beta_search gW 1 0 = some a ∧ a ∈ gW.actions 0 :=
  ⟨by decide, by decide, alpha_beta_returns_legal_action gW 1 0 (by decide) (by decide)⟩

/-- C5: at the root, `alpha_beta_search` keeps the first action (in
`actions()` order) whose evaluated value achieves the maximum; a later tie
never replaces the incumbent (strict `>` comparison). -/
theorem alpha_beta_first_argmax (g : GameSpec S A) (n : Nat) (s : S)
    (hnice : Nice g (n + 1) s = true) (hterm : g.terminal_test s = false) :
    alpha_beta_search g n s =
      first_argmax ((g.actions s).map fun a => (a, mm_value g n false (g.result s a))) := by
  rcases (nice_succ_iff g n s).mp hnice with h | ⟨hne, hall⟩
  · rw [hterm] at h; cases h
  rw [ab_search_eq_mm_search g n s hnice hterm]
  show mm_root g n s (g.actions s) ⊥ none = _
  rw [mm_root_eq_genLoop, genLoop_argmax, first_argmax_map]
  rw [if_neg]
  rw [not_le]
  refine bot_lt_listMax _ (fun hmap => hne (List.map_eq_nil_iff.mp hmap)) ?_
  intro x hx
  obtain ⟨a, ha, rfl⟩ := List.mem_map.mp hx
  exact (mm_finite g n false (g.result s a) (hall a ha)).1

/-- Witness for C5 on the concrete game `gW`, which has a root tie: both root
actions have minimax value 1, and the first is kept. -/
theorem alpha_beta_first_argmax_witness :
    Nice gW 2 0 = true ∧ gW.terminal_test 0 = false ∧
      alpha_beta_search gW 1 0 =
        first_argmax ((gW.actions 0).map fun a => (a, mm_value gW 1 false (gW.result 0 a))) :=
  ⟨by decide, by decide, alpha_beta_first_argmax gW 1 0 (by decide) (by decide)⟩

/-- C6: `alpha_beta_search` is a pure function of its input: same game, fuel
and state give the same chosen action on every invocation (no hidden state or
randomness in the embedding). -/
theorem alpha_beta_deterministic (g : GameSpec S A) (n : Nat) (s t : S)
    (h : s = t) : alpha_beta_search g n s = alpha_beta_search g n t := by
  rw [h]

/-- Witness for C6: two invocations on the same concrete state. -/
theorem alpha_beta_deterministic_witness :
    (0 : Nat) = 0 ∧ alpha_beta_search gW 1 0 = alpha_beta_search gW 1 0 :=
  ⟨rfl, alpha_beta_deterministic gW 1 0 0 rfl⟩

/-- C3 counterexample: in the concrete game `g3` the root state 0 is to be
played by player 1, its only child is the terminal state 1, and both
evaluators return `utility(0) = -1` there rather than the utility `+1`
relative to the originally-searching player 1: the evaluators' perspective is
the hard-coded player 0, not the root player. -/
theorem min_value_root_player_cex :
    g3.parity 0 = 1 ∧ g3.result 0 0 = 1 ∧ g3.terminal_test 1 = true ∧
      g3.utility 1 (g3.parity 0) = 1 ∧
      min_value g3 1 1 ⊥ ⊤ = intV (-1) ∧ max_value g3 1 1 ⊥ ⊤ = intV (-1) ∧
      intV (-1) ≠ intV 1 := by
  refine ⟨rfl, rfl, rfl, rfl, ?_, ?_, by decide⟩ <;> rfl

/-- C3 amended: at every terminal state both evaluators return the terminal
utility evaluated relative to player 0, and that perspective is a fixed
constant through all recursive calls regardless of which player is to move at
the root. -/
theorem terminal_eval_player_zero (g : GameSpec S A) (n : Nat) (s : S)
    (alpha beta : V) (hterm : g.terminal_test s = true) :
    min_value g n s alpha beta = utilV g s 0 ∧
      max_value g n s alpha beta = utilV g s 0 := by
  cases n <;> simp [min_value, max_value, ab_value, hterm]

/-- Witness for the amended C3 at the terminal state of `g3`. -/
theorem terminal_eval_player_zero_witness :
    g3.terminal_test 1 = true ∧
      (min_value g3 1 1 ⊥ ⊤ = utilV g3 1 0 ∧ max_value g3 1 1 ⊥ ⊤ = utilV g3 1 0) :=
  ⟨by decide, terminal_eval_player_zero g3 1 1 ⊥ ⊤ (by decide)⟩

/-- C4: on every non-terminal state, `min_value` behaves exactly as the
claim describes - running value initialized to `+inf`, recursion into
`max_value` on each child with the current `(alpha, beta)`, running minimum,
immediate return as soon as the running value is `≤ alpha`, otherwise `beta`
lowered to `min(beta, v)` before the next sibling - and `max_value` behaves
symmetrically (`-inf` start, immediate return once `≥ beta`, `alpha` raised
to `max(alpha, v)`), as transcribed by `min_desc` and `max_desc`. -/
theorem min_max_value_desc (g : GameSpec S A) (n : Nat) (s : S) (alpha beta : V)
    (hterm : g.terminal_test s = false) :
    min_value g (n + 1) s alpha beta =
      min_desc (fun a be => max_value g n (g.result s a) alpha be) alpha beta
        (g.actions s) ∧
    max_value g (n + 1) s alpha beta =
      max_desc (fun a al => min_value g n (g.result s a) al beta) alpha beta
        (g.actions s) := by
  constructor
  · rw [min_desc_eq]
    simp [min_value, max_value, ab_value, hterm]
  · rw [max_desc_eq]
    simp [min_value, max_value, ab_value, hterm]

/-- Witness for C4 at the non-terminal root of `gW`. -/
theorem min_max_value_desc_witness :
    gW.terminal_test 0 = false ∧
      (min_value gW 2 0 ⊥ ⊤ =
          min_desc (fun a be => max_value gW 1 (gW.result 0 a) ⊥ be) ⊥ ⊤
            (gW.actions 0) ∧
        max_value gW 2 0 ⊥ ⊤ =
          max_desc (fun a al => min_value gW 1 (gW.result 0 a) al ⊤) ⊥ ⊤
            (gW.actions 0)) :=
  ⟨by decide, min_max_value_desc gW 1 0 ⊥ ⊤ (by decide)⟩

/-! ### Lemmas about the opening-book builder -/

theorem choice_some (rho : Nat → Nat) (i : Nat) :
    ∀ l : List A, l ≠ [] → ∃ a, choice rho i l = some a ∧ a ∈ l := by
  intro l hne
  have hlen : 0 < l.length := List.length_pos.mpr hne
  have hmod : rho i % l.length < l.length := Nat.mod_lt _ hlen
  refine ⟨l.get ⟨rho i % l.length, hmod⟩, ?_, List.get_mem l _ hmod⟩
  show l.get? (rho i % l.length) = _
  rw [List.get?_eq_get hmod]

theorem playout_ok (g : GameSpec S A) (rho : Nat → Nat) :
    ∀ (n : Nat) (s : S) (i : Nat), Nice g n s = true →
      ∃ t j, playout g rho n i s = some (t, j) ∧ g.terminal_test t = true := by
  intro n
  induction n with
  | zero =>
    intro s i hnice
    have hterm : g.terminal_test s = true := hnice
    exact ⟨s, i, by simp [playout, hterm], hterm⟩
  | succ n ih =>
    intro s i hnice
    by_cases hterm : g.terminal_test s = true
    · exact ⟨s, i, by simp [playout, hterm], hterm⟩
    · rcases (nice_succ_iff g n s).mp hnice with h | ⟨hne, hall⟩
      · exact absurd h hterm
      obtain ⟨a, hch, ha⟩ := choice_some rho i (g.actions s) hne
      obtain ⟨t, j, hpl, htt⟩ := ih (g.result s a) (i + 1) (hall a ha)
      refine ⟨t, j, ?_, htt⟩
      show (if g.terminal_test s then some (s, i)
        else (choice rho i (g.actions s)).bind fun a =>
          playout g rho n (i + 1) (g.result s a)) = some (t, j)
      rw [if_neg hterm, hch]
      exact hpl

theorem score_pm_one (g : GameSpec S A) (pid : Nat) (t : S) :
    score g pid t = 1 ∨ score g pid t = -1 := by
  unfold score
  split
  · exact Or.inr rfl
  · exact Or.inl rfl

theorem simulate_ok (g : GameSpec S A) (rho : Nat → Nat) (n : Nat) (s : S)
    (i : Nat) (hnice : Nice g n s = true) :
    ∃ r j, simulate g rho n i s = some (r, j) ∧ (r = 1 ∨ r = -1) := by
  obtain ⟨t, j, hpl, _⟩ := playout_ok g rho n s i hnice
  refine ⟨score g (g.parity s) t, j, ?_, score_pm_one g (g.parity s) t⟩
  unfold simulate
  rw [hpl]
  rfl

theorem cInc_ne_nil (c : Counter A) (a : A) (r : Int) : cInc c a r ≠ [] := by
  cases c with
  | nil => simp [cInc]
  | cons p rest =>
    show (if a = p.1 then _ else _) ≠ []
    split <;> simp

theorem cInc_keys (a : A) (r : Int) :
    ∀ c : Counter A, ∀ q ∈ cInc c a r, q.1 = a ∨ ∃ k, (q.1, k) ∈ c := by
  intro c
  induction c with
  | nil =>
    intro q hq
    rcases List.mem_singleton.mp hq with rfl
    exact Or.inl rfl
  | cons p rest ih =>
    intro q hq
    by_cases h : a = p.1
    · have hc : cInc (p :: rest) a r = (p.1, p.2 + r) :: rest := by
        show (if a = p.1 then (p.1, p.2 + r) :: rest else _) = _
        rw [if_pos h]
      rw [hc] at hq
      rcases List.mem_cons.mp hq with rfl | hq2
      · exact Or.inl h.symm
      · exact Or.inr ⟨q.2, List.mem_cons_of_mem p (by simpa using hq2)⟩
    · have hc : cInc (p :: rest) a r = (p.1, p.2) :: cInc rest a r := by
        show (if a = p.1 then _ else (p.1, p.2) :: cInc rest a r) = _
        rw [if_neg h]
      rw [hc] at hq
      rcases List.mem_cons.mp hq with rfl | hq2
      · exact Or.inr ⟨p.2, by simp⟩
      · rcases ih q hq2 with h1 | ⟨k, hk⟩
        · exact Or.inl h1
        · exact Or.inr ⟨k, List.mem_cons_of_mem p hk⟩

theorem bInc_ne_nil (book : Book H A) (h : H) (a : A) (r : Int) :
    bInc book h a r ≠ [] := by
  cases book with
  | nil => simp [bInc]
  | cons p rest =>
    show (if h = p.1 then _ else _) ≠ []
    split <;> simp

theorem bInc_good (g : GameSpec S A) (hsh : S → H) (init : S)
    (hinj : Function.Injective hsh) (s : S) (a : A)
    (hreach : Reach g init s) (ha : a ∈ g.actions s) (r : Int) :
    ∀ book : Book H A, GoodBook g hsh init book →
      GoodBook g hsh init (bInc book (hsh s) a r) := by
  intro book
  induction book with
  | nil =>
    intro _ p hp
    rcases List.mem_singleton.mp hp with rfl
    refine ⟨s, hreach, rfl, by simp, ?_⟩
    intro q hq
    rcases List.mem_singleton.mp hq with rfl
    exact ha
  | cons e rest ih =>
    intro hgood p hp
    by_cases heq : hsh s = e.1
    · have hb : bInc (e :: rest) (hsh s) a r = (e.1, cInc e.2 a r) :: rest := by
        show (if hsh s = e.1 then _ else _) = _
        rw [if_pos heq]
      rw [hb] at hp
      rcases List.mem_cons.mp hp with rfl | hp2
      · obtain ⟨s2, hr2, hh2, _, hkeys⟩ :=
          hgood e (List.mem_cons_self e rest)
      -- the existing key is the hash of s, by injectivity
        have hs2 : s2 = s := hinj (by rw [hh2, ← heq])
        refine ⟨s, hreach, heq, cInc_ne_nil _ _ _, ?_⟩
        intro q hq
        rcases cInc_keys a r e.2 q hq with h1 | ⟨k, hk⟩
        · rw [h1]; exact ha
        · have := hkeys (q.1, k) hk
          rw [← hs2]; exact this
      · exact hgood p (List.mem_cons_of_mem e hp2)
    · have hb : bInc (e :: rest) (hsh s) a r
          = (e.1, e.2) :: bInc rest (hsh s) a r := by
        show (if hsh s = e.1 then _ else _) = _
        rw [if_neg heq]
      rw [hb] at hp
      rcases List.mem_cons.mp hp with rfl | hp2
      · exact hgood ⟨e.1, e.2⟩ (by simp)
      · exact ih (fun q hq => hgood q (List.mem_cons_of_mem e hq)) p hp2

/-- An episode descent succeeds on a nice game, preserves the book
invariant, never erases entries, and records at least one entry whenever it
starts at depth `> 0` on a non-terminal state. -/
theorem build_tree_ok (g : GameSpec S A) (hsh : S → H) (rho : Nat → Nat)
    (F : Nat) (init : S) (hinj : Function.Injective hsh) :
    ∀ (d : Nat) (s : S) (i : Nat) (book : Book H A),
      Nice g F s = true → Reach g init s → GoodBook g hsh init book →
      ∃ r j book', build_tree g hsh rho F d i s book = some (r, j, book') ∧
        GoodBook g hsh init book' ∧
        (book ≠ [] → book' ≠ []) ∧
        (0 < d → g.terminal_test s = false → book' ≠ []) := by
  intro d
  induction d with
  | zero =>
    intro s i book hnice _ hgood
    obtain ⟨r, j, hsim, _⟩ := simulate_ok g rho F s i hnice
    refine ⟨-r, j, book, ?_, hgood, fun h => h, fun h0 _ => absurd h0 (by simp)⟩
    show (simulate g rho F i s).map _ = _
    rw [hsim]
    rfl
  | succ d ih =>
    intro s i book hnice hreach hgood
    by_cases hterm : g.terminal_test s = true
    · obtain ⟨r, j, hsim, _⟩ := simulate_ok g rho F s i hnice
      refine ⟨-r, j, book, ?_, hgood, fun h => h,
        fun _ hf => by rw [hterm] at hf; cases hf⟩
      show (if g.terminal_test s then (simulate g rho F i s).map _ else _) = _
      rw [if_pos hterm, hsim]
      rfl
    · cases F with
      | zero => exact absurd hnice hterm
      | succ F2 =>
        rcases (nice_succ_iff g F2 s).mp hnice with h | ⟨hne, hall⟩
        · exact absurd h hterm
        obtain ⟨a, hch, ha⟩ := choice_some rho i (g.actions s) hne
        have hnc : Nice g (F2 + 1) (g.result s a) = true :=
          nice_succ_of_nice g F2 (g.result s a) (hall a ha)
        obtain ⟨r, j, book1, hrec, hgood1, _, _⟩ :=
          ih (g.result s a) (i + 1) book hnc (Reach.step s a hreach ha) hgood
        refine ⟨-r, j, bInc book1 (hsh s) a r, ?_,
          bInc_good g hsh init hinj s a hreach ha r book1 hgood1,
          fun _ => bInc_ne_nil book1 (hsh s) a r,
          fun _ _ => bInc_ne_nil book1 (hsh s) a r⟩
        show (if g.terminal_test s then _
          else (choice rho (i) (g.actions s)).bind fun a2 =>
            (build_tree g hsh rho (F2 + 1) d (i + 1) (g.result s a2) book).map
              fun q => (-q.1, q.2.1, bInc q.2.2 (hsh s) a2 q.1)) = _
        rw [if_neg hterm, hch]
        show (build_tree g hsh rho (F2 + 1) d (i + 1) (g.result s a) book).map _ = _
        rw [hrec]
        rfl

/-- The episode loop succeeds, preserves the book invariant, and produces a
nonempty book as soon as at least one round runs from a non-terminal initial
state. -/
theorem build_rounds_ok (g : GameSpec S A) (hsh : S → H) (rho : Nat → Nat)
    (F : Nat) (init : S) (hinj : Function.Injective hsh)
    (hnice : Nice g F init = true) (hterm : g.terminal_test init = false) :
    ∀ (R : Nat) (i : Nat) (book : Book H A), GoodBook g hsh init book →
      ∃ j book', build_rounds g hsh rho F init R i book = some (j, book') ∧
        GoodBook g hsh init book' ∧
        (book ≠ [] → book' ≠ []) ∧ (0 < R → book' ≠ []) := by
  intro R
  induction R with
  | zero =>
    intro i book hgood
    exact ⟨i, book, rfl, hgood, fun h => h, fun h0 => absurd h0 (by simp)⟩
  | succ R ih =>
    intro i book hgood
    obtain ⟨r, j, book1, htree, hgood1, hne1, hrec1⟩ :=
      build_tree_ok g hsh rho F init hinj 2 init i book hnice Reach.init hgood
    have hb1 : book1 ≠ [] := hrec1 (by simp) hterm
    obtain ⟨j2, book2, hrounds, hgood2, hne2, _⟩ := ih j book1 hgood1
    refine ⟨j2, book2, ?_, hgood2, fun _ => hne2 hb1, fun _ => hne2 hb1⟩
    show (build_tree g hsh rho F 2 i init book).bind _ = _
    rw [htree]
    exact hrounds

theorem listMaxI_mem : ∀ l : List Int, l ≠ [] → listMaxI l ∈ l := by
  intro l
  induction l with
  | nil => intro h; exact absurd rfl h
  | cons x rest ih =>
    intro _
    cases rest with
    | nil => simp [listMaxI]
    | cons y t =>
      have hM : listMaxI (x :: y :: t) = max x (listMaxI (y :: t)) := rfl
      rw [hM]
      rcases max_choice x (listMaxI (y :: t)) with h | h
      · rw [h]; exact List.mem_cons_self x (y :: t)
      · rw [h]; exact List.mem_cons_of_mem x (ih (by simp))

theorem counter_best_some (c : Counter A) (hne : c ≠ []) :
    ∃ a, counter_best c = some a ∧ ∃ k, (a, k) ∈ c := by
  have hmem : listMaxI (c.map Prod.snd) ∈ c.map Prod.snd :=
    listMaxI_mem _ (fun h => hne (List.map_eq_nil_iff.mp h))
  obtain ⟨p, hp, hpe⟩ := List.mem_map.mp hmem
  cases hfind : c.find? (fun q => decide (q.2 = listMaxI (c.map Prod.snd))) with
  | none =>
    have := List.find?_eq_none.mp hfind p hp
    exact absurd (decide_eq_true hpe) this
  | some q =>
    have hq := List.mem_of_find?_eq_some hfind
    refine ⟨q.1, ?_, q.2, by simpa using hq⟩
    show (c.find? fun q => decide (q.2 = listMaxI (c.map Prod.snd))).map Prod.fst = _
    rw [hfind]
    rfl

theorem tableOf_good (g : GameSpec S A) (hsh : S → H) (init : S) :
    ∀ book : Book H A, GoodBook g hsh init book →
      ∃ t, tableOf book = some t ∧ (book ≠ [] → t ≠ []) ∧
        ∀ p ∈ t, ∃ s, Reach g init s ∧ hsh s = p.1 ∧ p.2 ∈ g.actions s := by
  intro book
  induction book with
  | nil =>
    intro _
    exact ⟨[], rfl, fun h => absurd rfl h, by simp⟩
  | cons e rest ih =>
    intro hgood
    obtain ⟨s, hr, hh, hcne, hkeys⟩ := hgood e (List.mem_cons_self e rest)
    obtain ⟨a, hbest, k, hk⟩ := counter_best_some e.2 hcne
    obtain ⟨t, htab, _, hall⟩ := ih (fun q hq => hgood q (List.mem_cons_of_mem e hq))
    refine ⟨(e.1, a) :: t, ?_, fun _ => by simp, ?_⟩
    · show (counter_best e.2).bind (fun a => (tableOf rest).map fun t => (e.1, a) :: t) = _
      rw [hbest]
      show (tableOf rest).map _ = _
      rw [htab]
      rfl
    · intro p hp
      rcases List.mem_cons.mp hp with rfl | hp2
      · exact ⟨s, hr, hh, hkeys (a, k) hk⟩
      · exact hall p hp2

/-! ### The claims about the opening-book builder -/

/-- C7: `build_table` with zero rounds returns the empty mapping; with a
positive round count on a nice non-terminal initial state it returns, for
every random stream, a non-empty mapping whose keys are hashable
representations of states reachable during the episodes and whose values are
legal actions of the corresponding states. -/
theorem build_table_spec (g : GameSpec S A) (hsh : S → H) (rho : Nat → Nat)
    (F : Nat) (init : S) (hinj : Function.Injective hsh)
    (hnice : Nice g F init = true) (hterm : g.terminal_test init = false) :
    build_table g hsh rho F init 0 = some [] ∧
    ∀ R, 0 < R → ∃ tbl, build_table g hsh rho F init R = some tbl ∧ tbl ≠ [] ∧
      ∀ p ∈ tbl, ∃ s, Reach g init s ∧ hsh s = p.1 ∧ p.2 ∈ g.actions s := by
  constructor
  · rfl
  · intro R hR
    obtain ⟨j, book, hrounds, hgood, _, hne⟩ :=
      build_rounds_ok g hsh rho F init hinj hnice hterm R 0 []
        (fun p hp => absurd hp (List.not_mem_nil p))
    obtain ⟨t, htab, htne, hall⟩ := tableOf_good g hsh init book hgood
    refine ⟨t, ?_, htne (hne hR), hall⟩
    show (build_rounds g hsh rho F init R 0 []).bind (fun q => tableOf q.2) = _
    rw [hrounds]
    exact htab

/-- Witness for C7 on the concrete line game `g8` with the constant random
stream, one round. -/
theorem build_table_spec_witness :
    Nice g8 3 0 = true ∧ g8.terminal_test 0 = false ∧
      (build_table g8 id rho0 3 0 0 = some [] ∧
        ∀ R, 0 < R → ∃ tbl, build_table g8 id rho0 3 0 R = some tbl ∧ tbl ≠ [] ∧
          ∀ p ∈ tbl, ∃ s, Reach g8 0 s ∧ id s = p.1 ∧ p.2 ∈ g8.actions s) :=
  ⟨by decide, by decide,
    build_table_spec g8 id rho0 3 0 (fun a b h => h) (by decide) (by decide)⟩

/-- C8 counterexample: in the line game `g8` with the constant stream, the
rollout starts at state 2 whose mover is player 0, that player strictly wins
(`utility 3 0 = 1 > 0`), yet the `(state, action)` pair recorded at the ply
immediately above the rollout start - `(state 1, action 0)`, the action that
produced the rollout-start state - accumulates `-1`, not the claimed `+1`. -/
theorem build_tree_reward_sign_cex :
    g8.parity 2 = 0 ∧ g8.result 1 0 = 2 ∧
      playout g8 rho0 5 2 2 = some (3, 3) ∧
      (0 : ℤ) < g8.utility 3 (g8.parity 2) ∧
      build_tree g8 id rho0 5 2 0 0 []
        = some (-1, 3, [(1, [(0, -1)]), (0, [(0, 1)])]) := by
  refine ⟨rfl, rfl, by decide, by decide, rfl⟩

/-- C8 amended: the reward negates at every recursion level (negamax), but
its sign is anchored to each recorded state's own mover and is therefore
opposite to the rollout-start perspective at the ply immediately above the
rollout: the pair `(s, a)` recorded there accumulates `-sigma`, where `sigma`
is `+1` when the mover at the rollout-start state `result s a` wins or draws
the simulated continuation and `-1` when it strictly loses, and `sigma`
itself is passed up to the next level. -/
theorem build_tree_depth_one_spec (g : GameSpec S A) (hsh : S → H)
    (rho : Nat → Nat) (F i : Nat) (s : S) (a : A) (t : S) (j : Nat)
    (book : Book H A)
    (hterm : g.terminal_test s = false)
    (hchoice : choice rho i (g.actions s) = some a)
    (hplay : playout g rho F (i + 1) (g.result s a) = some (t, j)) :
    build_tree g hsh rho F 1 i s book =
      some (score g (g.parity (g.result s a)) t, j,
        bInc book (hsh s) a (-(score g (g.parity (g.result s a)) t))) ∧
    (0 ≤ g.utility t (g.parity (g.result s a)) →
      -(score g (g.parity (g.result s a)) t) = -1) ∧
    (g.utility t (g.parity (g.result s a)) < 0 →
      -(score g (g.parity (g.result s a)) t) = 1) := by
  have hsim : simulate g rho F (i + 1) (g.result s a)
      = some (score g (g.parity (g.result s a)) t, j) := by
    unfold simulate
    rw [hplay]
    rfl
  have h0 : build_tree g hsh rho F 0 (i + 1) (g.result s a) book
      = some (-(score g (g.parity (g.result s a)) t), j, book) := by
    show (simulate g rho F (i + 1) (g.result s a)).map _ = _
    rw [hsim]
    rfl
  refine ⟨?_, ?_, ?_⟩
  · show (if g.terminal_test s then _
      else (choice rho i (g.actions s)).bind fun a2 =>
        (build_tree g hsh rho F 0 (i + 1) (g.result s a2) book).map
          fun q => (-q.1, q.2.1, bInc q.2.2 (hsh s) a2 q.1)) = _
    rw [if_neg (by rw [hterm]; exact Bool.false_ne_true), hchoice]
    show (build_tree g hsh rho F 0 (i + 1) (g.result s a) book).map _ = _
    rw [h0]
    show some (-(-(score g (g.parity (g.result s a)) t)), j,
      bInc book (hsh s) a (-(score g (g.parity (g.result s a)) t))) = _
    rw [neg_neg]
  · intro h
    unfold score
    rw [if_neg (not_lt.mpr h)]
  · intro h
    unfold score
    rw [if_pos h]
    rfl

/-- Witness for the amended C8, instantiated one ply above the rollout start
in the line game `g8`. -/
theorem build_tree_depth_one_spec_witness :
    g8.terminal_test 1 = false ∧ choice rho0 1 (g8.actions 1) = some 0 ∧
      playout g8 rho0 5 2 (g8.result 1 0) = some (3, 3) ∧
      (build_tree g8 id rho0 5 1 1 1 [] =
        some (score g8 (g8.parity (g8.result 1 0)) 3, 3,
          bInc [] (id 1) 0 (-(score g8 (g8.parity (g8.result 1 0)) 3))) ∧
      (0 ≤ g8.utility 3 (g8.parity (g8.result 1 0)) →
        -(score g8 (g8.parity (g8.result 1 0)) 3) = -1) ∧
      (g8.utility 3 (g8.parity (g8.result 1 0)) < 0 →
        -(score g8 (g8.parity (g8.result 1 0)) 3) = 1)) :=
  ⟨by decide, by decide, by decide,
    build_tree_depth_one_spec g8 id rho0 5 1 1 0 3 3 []
      (by decide) (by decide) (by decide)⟩

/-- C10: `simulate` scores the rollout under `score`: a drawn terminal
outcome (utility exactly 0 for the player to move at rollout start) is scored
`+1`, the same as a strict win, and `-1` is returned only when that player's
terminal utility is strictly negative. -/
theorem simulate_draw_scores_win (g : GameSpec S A) (rho : Nat → Nat)
    (F i : Nat) (s t : S) (j : Nat)
    (hplay : playout g rho F i s = some (t, j)) :
    (g.utility t (g.parity s) = 0 → simulate g rho F i s = some (1, j)) ∧
    (0 < g.utility t (g.parity s) → simulate g rho F i s = some (1, j)) ∧
    (g.utility t (g.parity s) < 0 → simulate g rho F i s = some (-1, j)) := by
  have hsim : simulate g rho F i s = some (score g (g.parity s) t, j) := by
    unfold simulate
    rw [hplay]
    rfl
  refine ⟨?_, ?_, ?_⟩
  · intro h
    rw [hsim]
    unfold score
    rw [if_neg (by rw [h]; exact lt_irrefl 0)]
  · intro h
    rw [hsim]
    unfold score
    rw [if_neg (not_lt.mpr h.le)]
  · intro h
    rw [hsim]
    unfold score
    rw [if_pos h]

/-- Witness for C10 on the drawn game `g10`: the terminal utility is exactly
0 for the rollout-start mover and the rollout is scored `+1`. -/
theorem simulate_draw_scores_win_witness :
    playout g10 rho0 2 0 0 = some (1, 1) ∧ g10.utility 1 (g10.parity 0) = 0 ∧
      simulate g10 rho0 2 0 0 = some (1, 1) :=
  ⟨by decide, by decide,
    (simulate_draw_scores_win g10 rho0 2 0 0 1 1 (by decide)).1 (by decide)⟩

end AdvSearch

